import Mathlib

/-!
Verification of the `CoreRead` reader trait of bincode-core
(`src/traits/core_read.rs`).

Bytes are modelled as `Nat`; a reader state is passed explicitly.  Every
operation returns its result together with the state after the call (the
state is returned also on error, since in Rust a failing call still leaves
`&mut self` in whatever state the method body reached).
-/

/-- `SliceReadError` from `src/traits/core_read.rs`: the error thrown when
reading from a slice. -/
inductive SliceReadError where
  | EndOfSlice
deriving DecidableEq, Repr

/-- A `CoreRead` implementation: the one required method `read_range`,
returning the read bytes (or an error) and the state after the call. -/
structure CoreRead (σ ε : Type) where
  read_range : Nat → σ → Except ε (List Nat) × σ

/-- Default `CoreRead::read`: `read_range(1)?` then return the first byte of
the returned buffer. -/
def CoreRead.read {σ ε : Type} (R : CoreRead σ ε) (s : σ) : Except ε Nat × σ :=
  match R.read_range 1 s with
  | (.error e, s') => (.error e, s')
  | (.ok buff, s') => (.ok buff.headI, s')

/-- Loop body of the default `CoreRead::read_vec`: `for _ in 0..len
{ vec.push(self.read()?); }`, with `acc` the vector built so far. -/
def readVecGo {σ ε : Type} (R : CoreRead σ ε) :
    Nat → σ → List Nat → Except ε (List Nat) × σ
  | 0, s, acc => (.ok acc, s)
  | n + 1, s, acc =>
    match R.read s with
    | (.error e, s') => (.error e, s')
    | (.ok b, s') => readVecGo R n s' (acc ++ [b])

/-- Default `CoreRead::read_vec`: build an owned vector of `len` bytes by
repeated `read` calls. -/
def CoreRead.read_vec {σ ε : Type} (R : CoreRead σ ε) (len : Nat) (s : σ) :
    Except ε (List Nat) × σ :=
  readVecGo R len s []

/-- `<&[u8] as CoreRead>::read_range`: fail with `EndOfSlice` when `len`
exceeds the remaining length, otherwise return the first `len` bytes and
advance the remaining view past them. -/
def sliceReadRange (len : Nat) (s : List Nat) :
    Except SliceReadError (List Nat) × List Nat :=
  if len > s.length then (.error .EndOfSlice, s)
  else (.ok (s.take len), s.drop len)

/-- The `CoreRead` instance for `&[u8]`; the state is the remaining unread
suffix of the input. -/
def sliceSource : CoreRead (List Nat) SliceReadError :=
  ⟨sliceReadRange⟩

/-- A sequence of calls against a slice source: `read`, `read_range n`, or
`read_vec n`. -/
inductive ReadOp where
  | read : ReadOp
  | range (n : Nat) : ReadOp
  | vec (n : Nat) : ReadOp

/-- Run a sequence of operations on a slice source, keeping only the final
remaining view. -/
def runOps : List ReadOp → List Nat → List Nat
  | [], s => s
  | .read :: ops, s => runOps ops (sliceSource.read s).2
  | .range n :: ops, s => runOps ops (sliceSource.read_range n s).2
  | .vec n :: ops, s => runOps ops (sliceSource.read_vec n s).2

lemma sliceSource_read_range_eq (n : Nat) (s : List Nat) :
    sliceSource.read_range n s =
      if n > s.length then (.error .EndOfSlice, s)
      else (.ok (s.take n), s.drop n) := rfl

lemma sliceSource_read_nil : sliceSource.read [] = (.error .EndOfSlice, []) := rfl

lemma sliceSource_read_cons (b : Nat) (rest : List Nat) :
    sliceSource.read (b :: rest) = (.ok b, rest) := by
  simp [CoreRead.read, sliceSource, sliceReadRange, CoreRead.read_range, List.headI]

lemma readVecGo_ok (n : Nat) (s acc : List Nat) (h : n ≤ s.length) :
    readVecGo sliceSource n s acc = (.ok (acc ++ s.take n), s.drop n) := by
  induction n generalizing s acc with
  | zero => simp [readVecGo]
  | succ m ih =>
    cases s with
    | nil => simp at h
    | cons b rest =>
      rw [readVecGo, sliceSource_read_cons]
      show readVecGo sliceSource m rest (acc ++ [b]) = _
      rw [ih rest (acc ++ [b]) (Nat.le_of_succ_le_succ h)]
      simp

lemma readVecGo_err (n : Nat) (s acc : List Nat) (h : n > s.length) :
    readVecGo sliceSource n s acc = (.error .EndOfSlice, []) := by
  induction n generalizing s acc with
  | zero => simp at h
  | succ m ih =>
    cases s with
    | nil => rw [readVecGo, sliceSource_read_nil]
    | cons b rest =>
      rw [readVecGo, sliceSource_read_cons]
      show readVecGo sliceSource m rest (acc ++ [b]) = _
      exact ih rest (acc ++ [b]) (Nat.lt_of_succ_lt_succ h)

lemma sliceSource_read_vec_ok (n : Nat) (s : List Nat) (h : n ≤ s.length) :
    sliceSource.read_vec n s = (.ok (s.take n), s.drop n) := by
  rw [CoreRead.read_vec, readVecGo_ok n s [] h]; simp

lemma sliceSource_read_vec_err (n : Nat) (s : List Nat) (h : n > s.length) :
    sliceSource.read_vec n s = (.error .EndOfSlice, []) := by
  rw [CoreRead.read_vec, readVecGo_err n s [] h]

lemma sliceSource_read_range_snd_suffix (n : Nat) (s : List Nat) :
    (sliceSource.read_range n s).2 <:+ s := by
  rw [sliceSource_read_range_eq]
  split
  · exact List.suffix_refl s
  · exact List.drop_suffix n s

lemma sliceSource_read_snd_suffix (s : List Nat) :
    (sliceSource.read s).2 <:+ s := by
  cases s with
  | nil => rw [sliceSource_read_nil]
  | cons b rest => rw [sliceSource_read_cons]; exact List.suffix_cons b rest

lemma sliceSource_read_vec_snd_suffix (n : Nat) (s : List Nat) :
    (sliceSource.read_vec n s).2 <:+ s := by
  by_cases h : n ≤ s.length
  · rw [sliceSource_read_vec_ok n s h]; exact List.drop_suffix n s
  · rw [sliceSource_read_vec_err n s (Nat.lt_of_not_le h)]; exact List.nil_suffix

lemma runOps_suffix (ops : List ReadOp) (s : List Nat) : runOps ops s <:+ s := by
  induction ops generalizing s with
  | nil => exact List.suffix_refl s
  | cons op ops ih =>
    cases op with
    | read => exact (ih _).trans (sliceSource_read_snd_suffix s)
    | range n => exact (ih _).trans (sliceSource_read_range_snd_suffix n s)
    | vec n => exact (ih _).trans (sliceSource_read_vec_snd_suffix n s)

/-- C1: for every slice source and every n with n ≤ remaining length,
`read_range n` succeeds and returns a slice of length exactly n whose bytes
are the next n unread bytes in order, and the remaining view afterwards is
the original remaining view with its first n bytes removed. -/
theorem readRange_ok_spec (s : List Nat) (n : Nat) (h : n ≤ s.length) :
    sliceSource.read_range n s = (.ok (s.take n), s.drop n) ∧
      (s.take n).length = n := by
  constructor
  · rw [sliceSource_read_range_eq, if_neg (Nat.not_lt.mpr h)]
  · simp [List.length_take, Nat.min_eq_left h]

/-- C1 witness: `read_range 2` on `[0x01, 0x02, 0x03, 0x04]` returns
`[0x01, 0x02]` and leaves `[0x03, 0x04]`. -/
theorem readRange_ok_spec_witness :
    sliceSource.read_range 2 [0x01, 0x02, 0x03, 0x04] =
        (.ok [0x01, 0x02], [0x03, 0x04]) ∧
      (([0x01, 0x02, 0x03, 0x04] : List Nat).take 2).length = 2 := by
  have h := readRange_ok_spec [0x01, 0x02, 0x03, 0x04] 2 (by decide)
  simpa using h

/-- C3: a slice-source `read_range n` fails iff n exceeds the remaining
length, and when it fails it returns `EndOfSlice` with no bytes and leaves
the remaining view unchanged. -/
theorem readRange_err_spec (s : List Nat) (n : Nat) :
    ((sliceSource.read_range n s).1 = .error .EndOfSlice ↔ n > s.length) ∧
      (n > s.length → sliceSource.read_range n s = (.error .EndOfSlice, s)) := by
  rw [sliceSource_read_range_eq]
  by_cases h : n > s.length
  · simp [h]
  · simp [h]

/-- C3 witness: `read_range 5` on the three-byte slice `[1, 2, 3]` fails with
`EndOfSlice` and leaves the slice unchanged. -/
theorem readRange_err_spec_witness :
    sliceSource.read_range 5 [1, 2, 3] = (.error .EndOfSlice, [1, 2, 3]) :=
  (readRange_err_spec [1, 2, 3] 5).2 (by decide)

/-- C4: reading one byte at a time exactly `s.length` times from a slice
source succeeds and reproduces the input byte-for-byte in order, leaving
the source exhausted, and the next `read` then fails. -/
theorem read_exhaustive_spec (s : List Nat) :
    sliceSource.read_vec s.length s = (.ok s, []) ∧
      (sliceSource.read ((sliceSource.read_vec s.length s).2)).1 =
        .error .EndOfSlice := by
  have h1 : sliceSource.read_vec s.length s = (.ok s, []) := by
    rw [sliceSource_read_vec_ok s.length s (Nat.le_refl _), List.take_length,
      List.drop_length]
  refine ⟨h1, ?_⟩
  rw [h1, sliceSource_read_nil]

/-- C5: the default `read` is `read_range 1` followed by taking the first
element of the returned buffer — it propagates `read_range` errors on any
source, returns the first unread byte of a slice source and advances by
one, and in particular after `read_range 2` on `[0x01, 0x02, 0x03, 0x04]`
it returns `0x03` leaving `[0x04]`. -/
theorem read_default_spec :
    (∀ (σ ε : Type) (R : CoreRead σ ε) (s s' : σ) (e : ε),
        R.read_range 1 s = (.error e, s') → R.read s = (.error e, s')) ∧
    (∀ (σ ε : Type) (R : CoreRead σ ε) (s s' : σ) (buff : List Nat),
        R.read_range 1 s = (.ok buff, s') → R.read s = (.ok buff.headI, s')) ∧
    (∀ (b : Nat) (rest : List Nat),
        sliceSource.read (b :: rest) = (.ok b, rest)) ∧
    ((sliceSource.read_range 2 [0x01, 0x02, 0x03, 0x04]).2 = [0x03, 0x04] ∧
      sliceSource.read [0x03, 0x04] = (.ok 0x03, [0x04])) :=
  ⟨fun _ _ _ _ _ _ h => by simp [CoreRead.read, h],
   fun _ _ _ _ _ _ h => by simp [CoreRead.read, h],
   sliceSource_read_cons,
   rfl, sliceSource_read_cons 0x03 [0x04]⟩

/-- C5 witness: on the empty slice, `read_range 1` fails with `EndOfSlice`,
and so does the default `read`. -/
theorem read_default_spec_witness :
    sliceSource.read [] = (.error .EndOfSlice, []) :=
  read_default_spec.1 (List Nat) SliceReadError sliceSource [] [] .EndOfSlice rfl

/-- C6: `read_vec n` on a slice source with at least n remaining bytes
returns an owned sequence of exactly the next n bytes and advances by n;
when n exceeds the remaining length it returns the first underlying read
error and exposes no partial data; on `[0xAA, 0xBB, 0xCC, 0xDD]`,
`read_vec 3` returns `[0xAA, 0xBB, 0xCC]` leaving `[0xDD]`. -/
theorem read_vec_spec :
    (∀ (s : List Nat) (n : Nat), n ≤ s.length →
        sliceSource.read_vec n s = (.ok (s.take n), s.drop n) ∧
          (s.take n).length = n) ∧
    (∀ (s : List Nat) (n : Nat), n > s.length →
        (sliceSource.read_vec n s).1 = .error .EndOfSlice) ∧
    sliceSource.read_vec 3 [0xAA, 0xBB, 0xCC, 0xDD] =
      (.ok [0xAA, 0xBB, 0xCC], [0xDD]) := by
  refine ⟨fun s n h => ⟨sliceSource_read_vec_ok n s h, ?_⟩,
    fun s n h => by rw [sliceSource_read_vec_err n s h],
    ?_⟩
  · simp [List.length_take, Nat.min_eq_left h]
  · have h := sliceSource_read_vec_ok 3 [0xAA, 0xBB, 0xCC, 0xDD] (by decide)
    simpa using h

/-- C6 witness: `read_vec 1` on `[9, 7]` returns `[9]` leaving `[7]`. -/
theorem read_vec_spec_witness :
    sliceSource.read_vec 1 [9, 7] = (.ok (([9, 7] : List Nat).take 1),
        ([9, 7] : List Nat).drop 1) ∧
      (([9, 7] : List Nat).take 1).length = 1 :=
  read_vec_spec.1 [9, 7] 1 (by decide)

/-- C7: `read_range 0` succeeds on every slice source, exhausted or not,
returning the empty slice and leaving the remaining view unchanged. -/
theorem readRange_zero_spec (s : List Nat) :
    sliceSource.read_range 0 s = (.ok [], s) := by
  rw [sliceSource_read_range_eq]
  simp

/-- C8: the remaining view after any sequence of `read`, `read_range` and
`read_vec` calls is a suffix of the starting view (the cursor never
rewinds), and each successful call shortens the view by exactly the number
of bytes consumed: n for `read_range n`, 1 for `read`, n for `read_vec n`. -/
theorem cursor_monotone_spec :
    (∀ (ops : List ReadOp) (s : List Nat), runOps ops s <:+ s) ∧
    (∀ (s : List Nat) (n : Nat) (out s2 : List Nat),
        sliceSource.read_range n s = (.ok out, s2) → s2.length = s.length - n) ∧
    (∀ (s : List Nat) (b : Nat) (s2 : List Nat),
        sliceSource.read s = (.ok b, s2) → s2.length = s.length - 1) ∧
    (∀ (s : List Nat) (n : Nat) (out s2 : List Nat),
        sliceSource.read_vec n s = (.ok out, s2) → s2.length = s.length - n) := by
  refine ⟨runOps_suffix, fun s n out s2 h => ?_, fun s b s2 h => ?_,
    fun s n out s2 h => ?_⟩
  · rw [sliceSource_read_range_eq] at h
    by_cases hn : n > s.length
    · simp [hn] at h
    · rw [if_neg hn] at h
      obtain ⟨-, h2⟩ := Prod.mk.injEq .. ▸ h
      rw [← h2, List.length_drop]
  · cases s with
    | nil => rw [sliceSource_read_nil] at h; exact absurd h (by simp)
    | cons c rest =>
      rw [sliceSource_read_cons] at h
      obtain ⟨-, h2⟩ := Prod.mk.injEq .. ▸ h
      simp [← h2]
  · by_cases hn : n ≤ s.length
    · rw [sliceSource_read_vec_ok n s hn] at h
      obtain ⟨-, h2⟩ := Prod.mk.injEq .. ▸ h
      rw [← h2, List.length_drop]
    · rw [sliceSource_read_vec_err n s (Nat.lt_of_not_le hn)] at h
      exact absurd h (by simp)

/-- C8 witness: the successful `read_range 3` on `[1, 2, 3, 4]` leaves a
view of length `4 - 3`. -/
theorem cursor_monotone_spec_witness :
    ([4] : List Nat).length = ([1, 2, 3, 4] : List Nat).length - 3 :=
  cursor_monotone_spec.2.1 [1, 2, 3, 4] 3 [1, 2, 3] [4] rfl

/-- C9: `read_range n` with n exactly equal to the remaining length
succeeds, returns all remaining bytes, and leaves the source exhausted. -/
theorem readRange_exact_spec (s : List Nat) (n : Nat) (h : n = s.length) :
    sliceSource.read_range n s = (.ok s, []) := by
  subst h
  rw [sliceSource_read_range_eq]
  simp

/-- C9 witness: `read_range 2` on the two-byte slice `[5, 6]` returns both
bytes and leaves the empty view. -/
theorem readRange_exact_spec_witness :
    sliceSource.read_range 2 [5, 6] = (.ok [5, 6], []) :=
  readRange_exact_spec [5, 6] 2 rfl

/-- C10: on a slice source, a `read_vec n` with n greater than the
remaining length fails with `EndOfSlice`, but its byte-at-a-time loop first
consumes every remaining byte, so the failed call leaves the source
exhausted rather than at its pre-call position. -/
theorem read_vec_nonatomic_spec (s : List Nat) (n : Nat) (h : n > s.length) :
    sliceSource.read_vec n s = (.error .EndOfSlice, []) :=
  sliceSource_read_vec_err n s h

/-- C10 witness: `read_vec 5` on `[1, 2]` fails with `EndOfSlice` and leaves
the source empty, not at `[1, 2]`. -/
theorem read_vec_nonatomic_spec_witness :
    sliceSource.read_vec 5 [1, 2] = (.error .EndOfSlice, []) :=
  read_vec_nonatomic_spec [1, 2] 5 (by decide)
